import Mathlib

/-!
Verification of the facemation caching pipeline and normalization algorithm.

The definitions below are a shallow embedding of the Python sources:
`Cache.py`, `stages/NormalizeStage.py`, `stages/FindFacesStage.py`, and
`Pipeline.py` (all under `src/main/python`).  File names and paths are
modelled as lists of characters, the cache directory as an association list
from paths to abstract file contents, and numpy/float arithmetic as exact
rational arithmetic with explicit truncation where the code calls
`astype(int)` or `np.floor`.
-/

/-- File names and path fragments are lists of characters. -/
abbrev FName := List Char

/-- Configuration of one `Cache` instance (`Cache.__init__` in `Cache.py`):
the cache `directory`, the filename `prefix`, and the filename `suffix`.
The fields are called `dir`, `pfx`, `sfx` here. -/
structure CacheCfg where
  dir : FName
  pfx : FName
  sfx : FName

/-- The on-disk contents of a cache directory: each entry is a file path
together with its (abstract) content. -/
abbrev CFS := List (FName × Nat)

/-- The fragment `{directory}/{prefix}-{key}` shared by `Cache.path` and the
glob pattern of `Cache.path_all`. -/
def stem (c : CacheCfg) (key : FName) : FName :=
  c.dir ++ ['/'] ++ c.pfx ++ ['-'] ++ key

/-- `Cache.path`: the path `{directory}/{prefix}-{key}-{state}{suffix}`. -/
def pathName (c : CacheCfg) (key state : FName) : FName :=
  stem c key ++ ['-'] ++ state ++ c.sfx

/-- Whether a file name matches the glob pattern
`{directory}/{prefix}-{key}*{suffix}` used by `Cache.path_all`:
the name starts with `{directory}/{prefix}-{key}` and the rest ends with
`{suffix}`. -/
def globMatch (c : CacheCfg) (key f : FName) : Bool :=
  (stem c key).isPrefixOf f && c.sfx.isSuffixOf (f.drop (stem c key).length)

/-- Whether `f` is a cache entry for `key`: `f` equals `Cache.path key s`
for some state string `s`. -/
def isEntryFor (c : CacheCfg) (key f : FName) : Bool :=
  (stem c key ++ ['-']).isPrefixOf f &&
    c.sfx.isSuffixOf (f.drop (stem c key ++ ['-']).length)

/-- `Cache.has`: `True` iff the file `Cache.path key state` exists. -/
def hasEntry (c : CacheCfg) (fs : CFS) (key state : FName) : Bool :=
  fs.any (fun e => e.1 == pathName c key state)

/-- `Cache.load`: return the content of `Cache.path key state`; the raised
exception for a missing file is modelled by `Except.error`. -/
def loadEntry (c : CacheCfg) (fs : CFS) (key state : FName) : Except FName Nat :=
  match fs.find? (fun e => e.1 == pathName c key state) with
  | some e => .ok e.2
  | none => .error (pathName c key state)

/-- `Cache.cache`: raise (modelled by `none`) if key or state contains a dash;
otherwise delete every file matching the glob of `Cache.path_all key` and
write `data` at `Cache.path key state`. -/
def cacheStore (c : CacheCfg) (fs : CFS) (data : Nat) (key state : FName) :
    Option CFS :=
  if '-' ∈ key ∨ '-' ∈ state then none
  else some ((pathName c key state, data) :: fs.filter (fun e => !globMatch c key e.1))

/-- The number of files in `fs` that are a cache entry for `key`. -/
def countEntriesFor (c : CacheCfg) (fs : CFS) (key : FName) : Nat :=
  (fs.filter (fun e => isEntryFor c key e.1)).length

/-- A cache directory satisfies the per-key uniqueness invariant when every
dash-free key has at most one entry. -/
def uniqueInv (c : CacheCfg) (fs : CFS) : Prop :=
  ∀ key : FName, '-' ∉ key → countEntriesFor c fs key ≤ 1

theorem globMatch_iff (c : CacheCfg) (key f : FName) :
    globMatch c key f = true ↔ ∃ m, f = stem c key ++ m ++ c.sfx := by
  unfold globMatch
  simp only [Bool.and_eq_true, List.isPrefixOf_iff_prefix,
    List.isSuffixOf_iff_suffix]
  constructor
  · rintro ⟨⟨t, rfl⟩, hs⟩
    rw [List.drop_left] at hs
    obtain ⟨m, rfl⟩ := hs
    exact ⟨m, by simp⟩
  · rintro ⟨m, rfl⟩
    refine ⟨⟨m ++ c.sfx, by simp⟩, ?_⟩
    rw [List.append_assoc, List.drop_left]
    exact ⟨m, rfl⟩

theorem isEntryFor_iff (c : CacheCfg) (key f : FName) :
    isEntryFor c key f = true ↔ ∃ s, f = pathName c key s := by
  unfold isEntryFor pathName
  simp only [Bool.and_eq_true, List.isPrefixOf_iff_prefix,
    List.isSuffixOf_iff_suffix]
  constructor
  · rintro ⟨⟨t, rfl⟩, hs⟩
    rw [List.drop_left] at hs
    obtain ⟨m, rfl⟩ := hs
    exact ⟨m, by simp⟩
  · rintro ⟨s, rfl⟩
    refine ⟨⟨s ++ c.sfx, by simp⟩, ?_⟩
    rw [List.append_assoc, List.drop_left]
    exact ⟨s, rfl⟩

theorem globMatch_of_isEntryFor {c : CacheCfg} {key f : FName}
    (h : isEntryFor c key f = true) : globMatch c key f = true := by
  obtain ⟨s, rfl⟩ := (isEntryFor_iff c key f).mp h
  refine (globMatch_iff c key _).mpr ⟨['-'] ++ s, ?_⟩
  unfold pathName
  simp [List.append_assoc]

theorem globMatch_pathName (c : CacheCfg) (key state : FName) :
    globMatch c key (pathName c key state) = true :=
  globMatch_of_isEntryFor ((isEntryFor_iff c key _).mpr ⟨state, rfl⟩)

/-- If the separator occurs in neither `u` nor `v` then a prefix relation
between `u ++ [d]` and `v ++ ([d] ++ w)` forces `u = v`. -/
theorem sep_prefix_eq {α : Type} {d : α} {u : List α} :
    ∀ {v w : List α}, d ∉ u → d ∉ v → u ++ [d] <+: v ++ ([d] ++ w) → u = v := by
  induction u with
  | nil =>
    intro v w _ hv h
    cases v with
    | nil => rfl
    | cons b v' =>
      simp only [List.nil_append, List.cons_append, List.cons_prefix_cons] at h
      rw [h.1] at hv
      exact absurd (List.mem_cons_self b v') hv
  | cons a u' ih =>
    intro v w hu hv h
    cases v with
    | nil =>
      simp only [List.cons_append, List.nil_append, List.cons_prefix_cons] at h
      exact absurd (List.mem_cons.mpr (Or.inl h.1.symm)) hu
    | cons b v' =>
      simp only [List.cons_append, List.cons_prefix_cons] at h
      obtain ⟨hab, h'⟩ := h
      have hu' : d ∉ u' := fun hd => hu (List.mem_cons_of_mem a hd)
      have hv' : d ∉ v' := fun hd => hv (List.mem_cons_of_mem b hd)
      rw [hab, ih hu' hv' h']

/-- A path for a dash-free key `k'` is an entry for a dash-free key `k''`
only when the two keys coincide. -/
theorem isEntryFor_pathName_eq {c : CacheCfg} {k1 k2 s : FName}
    (h1 : '-' ∉ k1) (h2 : '-' ∉ k2)
    (h : isEntryFor c k1 (pathName c k2 s) = true) : k1 = k2 := by
  obtain ⟨t, ht⟩ := (isEntryFor_iff c k1 _).mp h
  unfold pathName stem at ht
  simp only [List.append_assoc] at ht
  have hpre : k1 ++ ['-'] <+: k2 ++ (['-'] ++ (s ++ c.sfx)) := by
    have := List.append_cancel_left ht
    have := List.append_cancel_left this
    have := List.append_cancel_left this
    have := List.append_cancel_left this
    exact ⟨t ++ c.sfx, by simpa [List.append_assoc] using this.symm⟩
  exact sep_prefix_eq h1 h2 hpre

/-- Paths with the same key and different states differ. -/
theorem pathName_state_inj {c : CacheCfg} {key s1 s2 : FName}
    (h : pathName c key s1 = pathName c key s2) : s1 = s2 := by
  unfold pathName at h
  exact List.append_cancel_left (List.append_cancel_right h)

/-- For a dash-free key, a proper path matches the glob of another key
exactly when the glob key is a string prefix of the path's key. -/
theorem globMatch_pathName_iff {c : CacheCfg} {key k2 s2 : FName}
    (hk : '-' ∉ key) :
    globMatch c key (pathName c k2 s2) = true ↔ key <+: k2 := by
  constructor
  · intro h
    obtain ⟨m, hm⟩ := (globMatch_iff c key _).mp h
    unfold pathName stem at hm
    simp only [List.append_assoc] at hm
    replace hm := List.append_cancel_left hm
    replace hm := List.append_cancel_left hm
    replace hm := List.append_cancel_left hm
    replace hm := List.append_cancel_left hm
    have hky : key <+: k2 ++ (['-'] ++ (s2 ++ c.sfx)) := ⟨m ++ c.sfx, by
      simpa [List.append_assoc] using hm.symm⟩
    have hk2 : k2 <+: k2 ++ (['-'] ++ (s2 ++ c.sfx)) := ⟨['-'] ++ (s2 ++ c.sfx), rfl⟩
    rcases List.prefix_or_prefix_of_prefix hky hk2 with h1 | h1
    · exact h1
    · obtain ⟨r, hr⟩ := h1
      cases r with
      | nil =>
        rw [← hr]
        simp
      | cons c0 r' =>
        exfalso
        have : (k2 ++ c0 :: r') ++ (m ++ c.sfx) = k2 ++ ('-' :: (s2 ++ c.sfx)) := by
          rw [hr]; simpa [List.append_assoc] using hm.symm
        rw [List.append_assoc] at this
        have hc0 : c0 = '-' := by
          have := List.append_cancel_left this
          exact (List.cons.injEq _ _ _ _ ▸ this).1
        apply hk
        rw [← hr]
        exact List.mem_append_right k2 (hc0 ▸ List.mem_cons_self c0 r')
  · rintro ⟨t, rfl⟩
    refine (globMatch_iff c key _).mpr ⟨t ++ ['-'] ++ s2, ?_⟩
    unfold pathName stem
    simp [List.append_assoc]

/-- Under valid arguments, `Cache.cache` succeeds and returns the new file
consed onto the glob-filtered directory. -/
theorem cacheStore_eq {c : CacheCfg} {fs : CFS} {data : Nat} {key s : FName}
    (hk : '-' ∉ key) (hs : '-' ∉ s) :
    cacheStore c fs data key s =
      some ((pathName c key s, data) :: fs.filter (fun e => !globMatch c key e.1)) := by
  unfold cacheStore
  rw [if_neg (by simp [hk, hs])]

/-- After a successful `Cache.cache`, exactly one entry for the written key
remains. -/
theorem countEntriesFor_store {c : CacheCfg} {fs fs' : CFS} {data : Nat}
    {key s : FName} (hk : '-' ∉ key) (hs : '-' ∉ s)
    (h : cacheStore c fs data key s = some fs') :
    countEntriesFor c fs' key = 1 := by
  rw [cacheStore_eq hk hs, Option.some.injEq] at h
  subst h
  unfold countEntriesFor
  rw [List.filter_cons_of_pos (by
    simpa using (isEntryFor_iff c key (pathName c key s)).mpr ⟨s, rfl⟩)]
  have hnil : (fs.filter (fun e => !globMatch c key e.1)).filter
      (fun e => isEntryFor c key e.1) = [] := by
    rw [List.filter_eq_nil_iff]
    intro e he hent
    have hglob := globMatch_of_isEntryFor (of_decide_eq_true (by simpa using hent))
    have := (List.mem_filter.mp he).2
    simp [hglob] at this
  simp [hnil]

/-- A successful `Cache.cache` preserves the at-most-one-entry-per-key
invariant. -/
theorem cacheStore_uniqueInv {c : CacheCfg} {fs fs' : CFS} {data : Nat}
    {key s : FName} (hk : '-' ∉ key) (hs : '-' ∉ s)
    (h : cacheStore c fs data key s = some fs') (hinv : uniqueInv c fs) :
    uniqueInv c fs' := by
  intro k2 hk2
  by_cases hkk : k2 = key
  · subst hkk
    exact (countEntriesFor_store hk2 hs h).le
  · rw [cacheStore_eq hk hs, Option.some.injEq] at h
    subst h
    unfold countEntriesFor
    rw [List.filter_cons_of_neg (by
      intro hent
      exact hkk (isEntryFor_pathName_eq hk2 hk (by simpa using hent)))]
    calc ((fs.filter (fun e => !globMatch c key e.1)).filter
            (fun e => isEntryFor c k2 e.1)).length
        ≤ (fs.filter (fun e => isEntryFor c k2 e.1)).length :=
          (((List.filter_sublist fs).filter _)).length_le
      _ ≤ 1 := hinv k2 hk2

/-- C1: storing twice under the same key leaves exactly the second state:
`has(key, s1)` is false, `has(key, s2)` is true, at most one entry for the
key remains, and every store preserves the per-key uniqueness invariant. -/
theorem cache_per_key_uniqueness (c : CacheCfg) (fs : CFS) (d1 d2 : Nat)
    (key s1 s2 : FName) (hk : '-' ∉ key) (h1 : '-' ∉ s1) (h2 : '-' ∉ s2)
    (hne : s1 ≠ s2) :
    ∃ fs1 fs2, cacheStore c fs d1 key s1 = some fs1 ∧
      cacheStore c fs1 d2 key s2 = some fs2 ∧
      hasEntry c fs2 key s1 = false ∧ hasEntry c fs2 key s2 = true ∧
      countEntriesFor c fs2 key ≤ 1 ∧
      (∀ fs' data' k' s' fsO, '-' ∉ k' → '-' ∉ s' →
        cacheStore c fs' data' k' s' = some fsO →
        uniqueInv c fs' → uniqueInv c fsO) := by
  refine ⟨_, _, cacheStore_eq hk h1, cacheStore_eq hk h2, ?_, ?_, ?_, ?_⟩
  · rw [hasEntry, List.any_eq_false]
    rintro ⟨f, d⟩ hf
    simp only [beq_iff_eq]
    rcases List.mem_cons.mp hf with hhead | htail
    · intro heq
      rw [Prod.mk.injEq] at hhead
      exact hne (pathName_state_inj (hhead.1 ▸ heq)).symm
    · intro hfeq
      have := (List.mem_filter.mp htail).2
      rw [hfeq] at this
      simp [globMatch_pathName] at this
  · rw [hasEntry, List.any_cons]
    simp
  · exact (countEntriesFor_store hk h2 (cacheStore_eq hk h2)).le
  · intro fs' data' k' s' fsO hk' hs' hst hinv
    exact cacheStore_uniqueInv hk' hs' hst hinv

/-- Witness for C1 at a concrete cache, key and states. -/
theorem cache_per_key_uniqueness_witness :
    ∃ fs1 fs2,
      cacheStore ⟨['d'], ['p'], ['s']⟩ [] 0 ['k'] ['a'] = some fs1 ∧
      cacheStore ⟨['d'], ['p'], ['s']⟩ fs1 1 ['k'] ['b'] = some fs2 ∧
      hasEntry ⟨['d'], ['p'], ['s']⟩ fs2 ['k'] ['a'] = false ∧
      hasEntry ⟨['d'], ['p'], ['s']⟩ fs2 ['k'] ['b'] = true ∧
      countEntriesFor ⟨['d'], ['p'], ['s']⟩ fs2 ['k'] ≤ 1 ∧
      (∀ fs' data' k' s' fsO, '-' ∉ k' → '-' ∉ s' →
        cacheStore ⟨['d'], ['p'], ['s']⟩ fs' data' k' s' = some fsO →
        uniqueInv ⟨['d'], ['p'], ['s']⟩ fs' → uniqueInv ⟨['d'], ['p'], ['s']⟩ fsO) :=
  cache_per_key_uniqueness _ _ _ _ _ _ _ (by decide) (by decide) (by decide)
    (by decide)

/-- The concrete cache configuration used by counterexamples and witnesses. -/
def cacheEx : CacheCfg := ⟨['d'], ['p'], ['s']⟩

/-- C2 amended: after storing under `(key, s)`, `has(key)` with no state
argument (Python default `state=""`) is true exactly when `s` is the empty
string, and likewise `load(key)` succeeds exactly when `s` is empty. -/
theorem hasEntry_no_state_after_store {c : CacheCfg} {fs fs' : CFS}
    {data : Nat} {key s : FName} (hk : '-' ∉ key) (hs : '-' ∉ s)
    (h : cacheStore c fs data key s = some fs') :
    (hasEntry c fs' key [] = true ↔ s = []) ∧
    ((loadEntry c fs' key []).isOk = true ↔ s = []) := by
  rw [cacheStore_eq hk hs, Option.some.injEq] at h
  subst h
  have hfilter : ∀ e ∈ fs.filter (fun e => !globMatch c key e.1),
      ¬ (e.1 == pathName c key []) = true := by
    intro e he heq
    have := (List.mem_filter.mp he).2
    rw [beq_iff_eq] at heq
    rw [heq] at this
    simp [globMatch_pathName] at this
  constructor
  · rw [hasEntry, List.any_cons]
    simp only [Bool.or_eq_true, List.any_eq_true]
    constructor
    · rintro (hhead | ⟨e, he, heq⟩)
      · exact pathName_state_inj (beq_iff_eq.mp hhead)
      · exact absurd heq (hfilter e he)
    · rintro rfl
      exact Or.inl (by simp)
  · unfold loadEntry
    by_cases hse : s = []
    · subst hse
      rw [List.find?_cons_of_pos _ (by simp)]
      simp [Except.isOk, Except.toBool]
    · rw [List.find?_cons_of_neg _ (by
        simp only [beq_iff_eq]
        exact fun heq => hse (pathName_state_inj heq))]
      rw [List.find?_eq_none.mpr hfilter]
      simp [Except.isOk, Except.toBool, hse]

/-- Witness for the amended C2 at a concrete store with a non-empty state. -/
theorem hasEntry_no_state_after_store_witness :
    (hasEntry cacheEx [(pathName cacheEx ['k'] ['a'], 7)] ['k'] [] = true ↔
      (['a'] : FName) = []) ∧
    ((loadEntry cacheEx [(pathName cacheEx ['k'] ['a'], 7)] ['k'] []).isOk = true ↔
      (['a'] : FName) = []) :=
  @hasEntry_no_state_after_store cacheEx [] [(pathName cacheEx ['k'] ['a'], 7)]
    7 ['k'] ['a'] (by decide) (by decide) (by decide)

/-- C2 counterexample: an entry for key `k` stored under the non-empty state
`a` exists, yet `has(k)` with no state argument returns `False` and `load(k)`
raises; so `has(key)` does not return true whenever some state is stored. -/
theorem hasEntry_no_state_counterexample :
    cacheStore cacheEx [] 7 ['k'] ['a'] =
      some [(pathName cacheEx ['k'] ['a'], 7)] ∧
    countEntriesFor cacheEx [(pathName cacheEx ['k'] ['a'], 7)] ['k'] = 1 ∧
    hasEntry cacheEx [(pathName cacheEx ['k'] ['a'], 7)] ['k'] [] = false ∧
    (loadEntry cacheEx [(pathName cacheEx ['k'] ['a'], 7)] ['k'] []).isOk = false := by
  decide

/-- C9: a store under key `key` also deletes every entry whose (dash-free)
key extends `key` as a string prefix, and leaves exactly the entries of
non-extending keys unchanged. -/
theorem cacheStore_prefix_collision (c : CacheCfg) (fs : CFS) (data : Nat)
    (key s : FName) (hk : '-' ∉ key) (hs : '-' ∉ s) :
    ∃ fs', cacheStore c fs data key s = some fs' ∧
      (∀ k' s' d', '-' ∉ k' → key <+: k' → key ≠ k' →
        (pathName c k' s', d') ∉ fs') ∧
      (∀ k2 s2 d2, '-' ∉ k2 → ¬ key <+: k2 →
        ((pathName c k2 s2, d2) ∈ fs' ↔ (pathName c k2 s2, d2) ∈ fs)) := by
  refine ⟨_, cacheStore_eq hk hs, ?_, ?_⟩
  · intro k' s' d' hk' hpre hne hmem
    rcases List.mem_cons.mp hmem with hhead | htail
    · rw [Prod.mk.injEq] at hhead
      have hent : isEntryFor c key (pathName c k' s') = true := by
        rw [hhead.1]
        exact (isEntryFor_iff c key _).mpr ⟨s, rfl⟩
      exact hne (isEntryFor_pathName_eq hk hk' hent)
    · have hg := (List.mem_filter.mp htail).2
      simp [(globMatch_pathName_iff hk).mpr hpre] at hg
  · intro k2 s2 d2 hk2 hnpre
    constructor
    · intro hmem
      rcases List.mem_cons.mp hmem with hhead | htail
      · rw [Prod.mk.injEq] at hhead
        have hent : isEntryFor c key (pathName c k2 s2) = true := by
          rw [hhead.1]
          exact (isEntryFor_iff c key _).mpr ⟨s, rfl⟩
        exact absurd (isEntryFor_pathName_eq hk hk2 hent ▸ List.prefix_refl key)
          hnpre
      · exact (List.mem_filter.mp htail).1
    · intro hmem
      refine List.mem_cons_of_mem _ (List.mem_filter.mpr ⟨hmem, ?_⟩)
      cases hgm : globMatch c key (pathName c k2 s2) with
      | false => simp [hgm]
      | true => exact absurd ((globMatch_pathName_iff hk).mp hgm) hnpre

/-- Witness for C9: storing under key `a` deletes the entry under key `ab`
and keeps the entry under key `b`. -/
theorem cacheStore_prefix_collision_witness :
    ∃ fs', cacheStore cacheEx
        [(pathName cacheEx ['a', 'b'] ['x'], 3), (pathName cacheEx ['b'] ['y'], 4)]
        0 ['a'] ['z'] = some fs' ∧
      (∀ k' s' d', '-' ∉ k' → ['a'] <+: k' → ['a'] ≠ k' →
        (pathName cacheEx k' s', d') ∉ fs') ∧
      (∀ k2 s2 d2, '-' ∉ k2 → ¬ ['a'] <+: k2 →
        ((pathName cacheEx k2 s2, d2) ∈ fs' ↔ (pathName cacheEx k2 s2, d2) ∈
          [(pathName cacheEx ['a', 'b'] ['x'], 3), (pathName cacheEx ['b'] ['y'], 4)])) :=
  cacheStore_prefix_collision _ _ _ _ _ (by decide) (by decide)

/-- Truncation toward zero: numpy's `astype(int)` applied to an exact value. -/
def ratTrunc (q : ℚ) : ℤ := if 0 ≤ q then ⌊q⌋ else ⌈q⌉

/-- A 2-D point with exact coordinates (embedding a float pair). -/
abbrev QPt := ℚ × ℚ

/-- A 2-D point with integer coordinates. -/
abbrev ZPt := ℤ × ℤ

/-- Per-image input to `NormalizeStage.process`: the two detected eye
positions `eyes[it][0]` and `eyes[it][1]`, the inter-eye distance
`math.dist(eyes[it][0], eyes[it][1])` (kept as a field because the Euclidean
distance is irrational in general), the image dimensions `dims`, and the
cosine and sine of the image's rotation angle
`-atan2(rel.y, rel.x)` of `scaledRelativeRightEyePos` (kept as fields
because trigonometric values are irrational in general). -/
structure GImg where
  eyeL : QPt
  eyeR : QPt
  eyeDist : ℚ
  dims : QPt
  cosA : ℚ
  sinA : ℚ

/-- `np.min` over a list of exact values (`0` for the empty list, on which
numpy raises instead). -/
def listMin (l : List ℚ) : ℚ :=
  match l with
  | [] => 0
  | x :: xs => xs.foldl min x

/-- `np.max` over a list of integers (`0` for the empty list, on which numpy
raises instead). -/
def listMaxZ (l : List ℤ) : ℤ :=
  match l with
  | [] => 0
  | x :: xs => xs.foldl max x

/-- `np.min` over a list of integers. -/
def listMinZ (l : List ℤ) : ℤ :=
  match l with
  | [] => 0
  | x :: xs => xs.foldl min x

/-- `min_eye_dist = np.min(np.array(list(eye_dists.values())))`. -/
def minEyeDist (b : List GImg) : ℚ := listMin (b.map (fun i => i.eyeDist))

/-- `scales[it] = min_eye_dist / eye_dists[it]`. -/
def scaleOf (b : List GImg) (i : GImg) : ℚ := minEyeDist b / i.eyeDist

/-- `scaled_img_dims[it] = (scales[it] * imgs[it]["dims"]).astype(int)`. -/
def scaledImgDims (b : List GImg) (i : GImg) : ZPt :=
  (ratTrunc (scaleOf b i * i.dims.1), ratTrunc (scaleOf b i * i.dims.2))

/-- `eye_centers[it] = np.mean([eyes0, eyes1], axis=0).astype(int)`. -/
def eyeCenter (i : GImg) : ZPt :=
  (ratTrunc ((i.eyeL.1 + i.eyeR.1) / 2), ratTrunc ((i.eyeL.2 + i.eyeR.2) / 2))

/-- `scaled_eye_centers[it] = (scales[it] * eye_centers[it]).astype(int)`. -/
def scaledEyeCenter (b : List GImg) (i : GImg) : ZPt :=
  (ratTrunc (scaleOf b i * ((eyeCenter i).1 : ℚ)),
   ratTrunc (scaleOf b i * ((eyeCenter i).2 : ℚ)))

/-- `max_scaled_eye_center = np.max(..., axis=0)`: coordinate-wise maximum
over the batch. -/
def maxScaledEyeCenter (b : List GImg) : ZPt :=
  (listMaxZ (b.map (fun i => (scaledEyeCenter b i).1)),
   listMaxZ (b.map (fun i => (scaledEyeCenter b i).2)))

/-- `translations[it] = max_scaled_eye_center - scaled_eye_centers[it]`. -/
def translationOf (b : List GImg) (i : GImg) : ZPt :=
  ((maxScaledEyeCenter b).1 - (scaledEyeCenter b i).1,
   (maxScaledEyeCenter b).2 - (scaledEyeCenter b i).2)

/-- `scaled_relative_right_eye_positions[it]
    = scales[it] * eyes[it][1] - scaled_eye_centers[it]`;
the image's rotation angle is `-atan2(v.2, v.1)` of this vector. -/
def scaledRelativeRightEyePos (b : List GImg) (i : GImg) : QPt :=
  (scaleOf b i * i.eyeR.1 - ((scaledEyeCenter b i).1 : ℚ),
   scaleOf b i * i.eyeR.2 - ((scaledEyeCenter b i).2 : ℚ))

/-- `get_corners(dims)`: the corners of a rectangle at the origin. -/
def getCorners (d : ZPt) : List ZPt := [(d.1, 0), (0, 0), (0, d.2), (d.1, d.2)]

/-- `rotate(origin, points, angle)` with `cs = cos angle` and `sn = sin angle`,
including the final `astype(int)`. -/
def rotatePts (origin : ZPt) (pts : List ZPt) (cs sn : ℚ) : List ZPt :=
  pts.map (fun p =>
    (ratTrunc ((origin.1 : ℚ) + cs * ((p.1 : ℚ) - (origin.1 : ℚ))
        - sn * ((p.2 : ℚ) - (origin.2 : ℚ))),
     ratTrunc ((origin.2 : ℚ) + sn * ((p.1 : ℚ) - (origin.1 : ℚ))
        + cs * ((p.2 : ℚ) - (origin.2 : ℚ)))))

/-- `img_corners_after_rotation[it] = rotate(max_scaled_eye_center,
translations[it] + get_corners(scaled_img_dims[it]), angles[it])`. -/
def cornersAfterRotation (b : List GImg) (i : GImg) : List ZPt :=
  rotatePts (maxScaledEyeCenter b)
    ((getCorners (scaledImgDims b i)).map
      (fun p => ((translationOf b i).1 + p.1, (translationOf b i).2 + p.2)))
    i.cosA i.sinA

/-- `np.sort` followed by indexing. -/
def sortedGet (l : List ℤ) (n : ℕ) : ℤ := (l.insertionSort (· ≤ ·)).getD n 0

/-- `largest_inner_rectangle(corners)`: sort each axis's coordinates and take
the two middle values, `[[xs[1], ys[1]], [xs[2], ys[2]]]`. -/
def largestInnerRectangle (corners : List ZPt) : ZPt × ZPt :=
  ((sortedGet (corners.map Prod.fst) 1, sortedGet (corners.map Prod.snd) 1),
   (sortedGet (corners.map Prod.fst) 2, sortedGet (corners.map Prod.snd) 2))

/-- `rectangle_overlap(rectangles)
    = [max lefts, max tops, min rights, min bottoms]`. -/
def rectangleOverlap (rects : List (ZPt × ZPt)) : ℤ × ℤ × ℤ × ℤ :=
  (listMaxZ (rects.map (fun r => r.1.1)),
   listMaxZ (rects.map (fun r => r.1.2)),
   listMinZ (rects.map (fun r => r.2.1)),
   listMinZ (rects.map (fun r => r.2.2)))

/-- `np.floor(n / 2) * 2` on an integer coordinate. -/
def evenFloor (n : ℤ) : ℤ := 2 * Int.fdiv n 2

/-- `min_inner_boundaries`: the intersection of all per-image inscribed
rectangles with every coordinate floored to an even integer
(`(np.floor(min_inner_boundaries / 2) * 2).astype(int)`). -/
def minInnerBoundaries (b : List GImg) : ℤ × ℤ × ℤ × ℤ :=
  match rectangleOverlap
      (b.map (fun i => largestInnerRectangle (cornersAfterRotation b i))) with
  | (l, t, r, bo) => (evenFloor l, evenFloor t, evenFloor r, evenFloor bo)

theorem foldl_min_le_init (l : List ℚ) (a : ℚ) : l.foldl min a ≤ a := by
  induction l generalizing a with
  | nil => simp
  | cons x xs ih => exact (ih (min a x)).trans (min_le_left a x)

theorem foldl_min_le_mem (l : List ℚ) (a : ℚ) : ∀ x ∈ l, l.foldl min a ≤ x := by
  induction l generalizing a with
  | nil => intro x hx; cases hx
  | cons y ys ih =>
    intro x hx
    rcases List.mem_cons.mp hx with rfl | h
    · exact (foldl_min_le_init ys (min a x)).trans (min_le_right a x)
    · exact ih (min a y) x h

theorem foldl_min_mem (l : List ℚ) (a : ℚ) :
    l.foldl min a = a ∨ l.foldl min a ∈ l := by
  induction l generalizing a with
  | nil => exact Or.inl rfl
  | cons x xs ih =>
    rcases ih (min a x) with h | h
    · rcases min_cases a x with ⟨hm, _⟩ | ⟨hm, _⟩
      · exact Or.inl (by rw [List.foldl_cons, h, hm])
      · exact Or.inr (by rw [List.foldl_cons, h, hm]; exact List.mem_cons_self x xs)
    · exact Or.inr (List.mem_cons_of_mem x h)

theorem listMin_le {l : List ℚ} : ∀ y ∈ l, listMin l ≤ y := by
  intro y hy
  cases l with
  | nil => cases hy
  | cons x xs =>
    rcases List.mem_cons.mp hy with rfl | h
    · exact foldl_min_le_init xs y
    · exact foldl_min_le_mem xs x y h

theorem listMin_mem {l : List ℚ} (hl : l ≠ []) : listMin l ∈ l := by
  cases l with
  | nil => exact absurd rfl hl
  | cons x xs =>
    show xs.foldl min x ∈ x :: xs
    rcases foldl_min_mem xs x with h | h
    · rw [h]
      exact List.mem_cons_self x xs
    · exact List.mem_cons_of_mem x h

theorem init_le_foldl_max (l : List ℤ) (a : ℤ) : a ≤ l.foldl max a := by
  induction l generalizing a with
  | nil => simp
  | cons x xs ih => exact (le_max_left a x).trans (ih (max a x))

theorem mem_le_foldl_max (l : List ℤ) (a : ℤ) : ∀ x ∈ l, x ≤ l.foldl max a := by
  induction l generalizing a with
  | nil => intro x hx; cases hx
  | cons y ys ih =>
    intro x hx
    rcases List.mem_cons.mp hx with rfl | h
    · exact (le_max_right a x).trans (init_le_foldl_max ys (max a x))
    · exact ih (max a y) x h

theorem le_listMaxZ {l : List ℤ} : ∀ x ∈ l, x ≤ listMaxZ l := by
  intro x hx
  cases l with
  | nil => cases hx
  | cons y ys =>
    rcases List.mem_cons.mp hx with rfl | h
    · exact init_le_foldl_max ys x
    · exact mem_le_foldl_max ys y x h

/-- An image with eyes a horizontal distance `d` apart. -/
def gimg (d : ℚ) : GImg := ⟨(0, 0), (d, 0), d, (1, 1), 1, 0⟩

/-- The batch of the spec's scenario: eye distances 100, 120 and 80. -/
def ex3 : List GImg := [gimg 100, gimg 120, gimg 80]

/-- C3: in a non-empty batch of positive eye distances, an image attaining
the minimum eye distance has scale exactly 1 and every image's scale is at
most 1; in the scenario with distances 100, 120 and 80 the minimum is 80 and
the scales are 4/5, 2/3 and 1. -/
theorem normalize_scale_monotonicity (b : List GImg) (hb : b ≠ [])
    (hpos : ∀ i ∈ b, 0 < i.eyeDist) :
    (∀ a ∈ b, (∀ j ∈ b, a.eyeDist ≤ j.eyeDist) → scaleOf b a = 1) ∧
    (∀ i ∈ b, scaleOf b i ≤ 1) ∧
    minEyeDist ex3 = 80 ∧
    ex3.map (fun i => scaleOf ex3 i) = [4/5, 2/3, 1] := by
  refine ⟨?_, ?_,
    by norm_num [minEyeDist, listMin, ex3, gimg, min_def],
    by norm_num [ex3, gimg, scaleOf, minEyeDist, listMin, min_def]⟩
  · intro a ha hmin
    have h1 : minEyeDist b ≤ a.eyeDist :=
      listMin_le a.eyeDist (List.mem_map.mpr ⟨a, ha, rfl⟩)
    have h2 : a.eyeDist ≤ minEyeDist b := by
      have hmem : minEyeDist b ∈ b.map (fun i => i.eyeDist) :=
        listMin_mem (fun hnil => hb (by simpa using hnil))
      obtain ⟨j, hj, hje⟩ := List.mem_map.mp hmem
      rw [← hje]
      exact hmin j hj
    rw [scaleOf, le_antisymm h1 h2]
    exact div_self (ne_of_gt (hpos a ha))
  · intro i hi
    rw [scaleOf, div_le_one (hpos i hi)]
    exact listMin_le i.eyeDist (List.mem_map.mpr ⟨i, hi, rfl⟩)

/-- Witness for C3 at the scenario batch. -/
theorem normalize_scale_monotonicity_witness :
    ((∀ a ∈ ex3, (∀ j ∈ ex3, a.eyeDist ≤ j.eyeDist) → scaleOf ex3 a = 1) ∧
     (∀ i ∈ ex3, scaleOf ex3 i ≤ 1) ∧
     minEyeDist ex3 = 80 ∧
     ex3.map (fun i => scaleOf ex3 i) = [4/5, 2/3, 1]) :=
  normalize_scale_monotonicity ex3 (by simp [ex3]) (by
    intro i hi
    simp only [ex3, List.mem_cons, List.not_mem_nil, or_false] at hi
    rcases hi with rfl | rfl | rfl <;> norm_num [gimg])

/-- C4: every image's translation `max_scaled_eye_center -
scaled_eye_centers[it]` is non-negative in both coordinates. -/
theorem normalize_translation_nonneg (b : List GImg) (_hb : b ≠ []) :
    ∀ i ∈ b, 0 ≤ (translationOf b i).1 ∧ 0 ≤ (translationOf b i).2 := by
  intro i hi
  constructor
  · have hmem : (scaledEyeCenter b i).1 ∈ b.map (fun j => (scaledEyeCenter b j).1) :=
      List.mem_map.mpr ⟨i, hi, rfl⟩
    have := le_listMaxZ _ hmem
    simpa [translationOf, maxScaledEyeCenter] using this
  · have hmem : (scaledEyeCenter b i).2 ∈ b.map (fun j => (scaledEyeCenter b j).2) :=
      List.mem_map.mpr ⟨i, hi, rfl⟩
    have := le_listMaxZ _ hmem
    simpa [translationOf, maxScaledEyeCenter] using this

/-- Witness for C4 at the scenario batch. -/
theorem normalize_translation_nonneg_witness :
    0 ≤ (translationOf ex3 (gimg 100)).1 ∧ 0 ≤ (translationOf ex3 (gimg 100)).2 :=
  normalize_translation_nonneg ex3 (by simp [ex3]) (gimg 100) (by simp [ex3])

/-- C5 amended: for every non-empty batch, the crop box produced by
intersecting the inscribed rectangles and flooring every coordinate to an
even integer has even width and even height. -/
theorem crop_box_even (b : List GImg) (_hb : b ≠ []) :
    (2 : ℤ) ∣ ((minInnerBoundaries b).2.2.1 - (minInnerBoundaries b).1) ∧
    (2 : ℤ) ∣ ((minInnerBoundaries b).2.2.2 - (minInnerBoundaries b).2.1) := by
  unfold minInnerBoundaries
  rcases hrov : rectangleOverlap
      (b.map (fun i => largestInnerRectangle (cornersAfterRotation b i))) with
    ⟨l, t, r, bo⟩
  exact ⟨⟨Int.fdiv r 2 - Int.fdiv l 2, by unfold evenFloor; ring⟩,
         ⟨Int.fdiv bo 2 - Int.fdiv t 2, by unfold evenFloor; ring⟩⟩

/-- Witness for the amended C5 at the scenario batch. -/
theorem crop_box_even_witness :
    (2 : ℤ) ∣ ((minInnerBoundaries ex3).2.2.1 - (minInnerBoundaries ex3).1) ∧
    (2 : ℤ) ∣ ((minInnerBoundaries ex3).2.2.2 - (minInnerBoundaries ex3).2.1) :=
  crop_box_even ex3 (by simp [ex3])

/-- A single-image batch whose crop box has width zero. -/
def ex5 : GImg := ⟨(0, 1), (1, 1), 1, (1, 3), 1, 0⟩

/-- C5 counterexample: a batch whose only image has rotation angle 0 (its
scaled relative right-eye vector is `(1, 0)`, so the angle `-atan2(0, 1)` is
`0`, matching the `cosA = 1`, `sinA = 0` fields), hence every rotation is
below 45 degrees in magnitude, yet the crop box is `(0, 0, 0, 2)`: its width
is `0`, not strictly positive. -/
theorem crop_box_positive_counterexample :
    scaledRelativeRightEyePos [ex5] ex5 = (1, 0) ∧
    ex5.cosA = 1 ∧ ex5.sinA = 0 ∧
    minInnerBoundaries [ex5] = (0, 0, 0, 2) ∧
    ¬ (0 < (minInnerBoundaries [ex5]).2.2.1 - (minInnerBoundaries [ex5]).1) := by
  have hbox : minInnerBoundaries [ex5] = (0, 0, 0, 2) := by
    norm_num [minInnerBoundaries, rectangleOverlap, largestInnerRectangle,
      cornersAfterRotation, rotatePts, getCorners, scaledImgDims, translationOf,
      maxScaledEyeCenter, scaledEyeCenter, eyeCenter, scaleOf, minEyeDist,
      listMin, listMaxZ, listMinZ, sortedGet, ratTrunc, evenFloor, ex5,
      List.insertionSort, List.orderedInsert, Int.fdiv]
  refine ⟨?_, rfl, rfl, hbox, ?_⟩
  · norm_num [scaledRelativeRightEyePos, scaledEyeCenter, eyeCenter, scaleOf,
      minEyeDist, listMin, ratTrunc, ex5]
  · rw [hbox]
    decide

/-- The data hashed into an image's normalized-cache state hash
(`state_hash = Hasher.hash_string(f"{eyes_string}-{params_string}")` with
`params_string` rendering `np.hstack([scales[it], translations[it],
angles[it], min_inner_boundaries])`): the image's eye array, its scale,
translation, rotation angle, and the batch-global crop box.  The angle is
represented by the vector `scaledRelativeRightEyePos` that determines it
(`angle = -atan2(v.y, v.x)`); the hash function is pure, so equal inputs
give equal state hashes, and the hash is treated as collision-free, so a
different crop box gives a different state hash. -/
def stateInput (b : List GImg) (i : GImg) :
    (QPt × QPt) × ℚ × ZPt × QPt × (ℤ × ℤ × ℤ × ℤ) :=
  ((i.eyeL, i.eyeR), scaleOf b i, translationOf b i,
    scaledRelativeRightEyePos b i, minInnerBoundaries b)

/-- C7 amended: the batch-global crop box is a component of every image's
normalized-cache state input, so whenever the crop box differs between two
batches, every image's state-hash input differs and the whole batch's
normalized-cache entries are invalidated. -/
theorem stateInput_box_component (b1 b2 : List GImg) (i1 i2 : GImg)
    (hbox : minInnerBoundaries b1 ≠ minInnerBoundaries b2) :
    stateInput b1 i1 ≠ stateInput b2 i2 := by
  intro h
  exact hbox (congrArg (fun t => t.2.2.2.2) h)

/-- Image Y of the C7 counterexample batch. -/
def imgY : GImg := ⟨(10, 10), (20, 10), 10, (30, 30), 1, 0⟩

/-- Image X of the C7 counterexample batch, first version of its eyes. -/
def imgX1 : GImg := ⟨(0, 0), (20, 0), 20, (200, 200), 1, 0⟩

/-- Image X of the C7 counterexample batch, with changed eye coordinates. -/
def imgX2 : GImg := ⟨(0, 0), (40, 0), 40, (200, 200), 1, 0⟩

/-- Witness for the amended C7: two concrete batches with different crop
boxes have different state inputs for every image. -/
theorem stateInput_box_component_witness :
    stateInput [ex5] ex5 ≠ stateInput [imgY, imgX1] imgY :=
  stateInput_box_component [ex5] [imgY, imgX1] ex5 imgY (by
    have h1 : minInnerBoundaries [ex5] = (0, 0, 0, 2) := by
      norm_num [minInnerBoundaries, rectangleOverlap, largestInnerRectangle,
        cornersAfterRotation, rotatePts, getCorners, scaledImgDims, translationOf,
        maxScaledEyeCenter, scaledEyeCenter, eyeCenter, scaleOf, minEyeDist,
        listMin, listMaxZ, listMinZ, sortedGet, ratTrunc, evenFloor, ex5,
        List.insertionSort, List.orderedInsert, Int.fdiv]
    have h2 : minInnerBoundaries [imgY, imgX1] = (10, 10, 30, 30) := by
      norm_num [minInnerBoundaries, rectangleOverlap, largestInnerRectangle,
        cornersAfterRotation, rotatePts, getCorners, scaledImgDims, translationOf,
        maxScaledEyeCenter, scaledEyeCenter, eyeCenter, scaleOf, minEyeDist,
        listMin, listMaxZ, listMinZ, sortedGet, ratTrunc, evenFloor, imgY, imgX1,
        List.insertionSort, List.orderedInsert, Int.fdiv, min_def, max_def]
    rw [h1, h2]
    decide)

/-- C7 counterexample: changing image X's detected eye coordinates (from
`imgX1` to `imgX2`) leaves image Y's entire normalized-cache state input
unchanged, because none of the batch-global parameters change; every image's
rotation is `0` in all four cases (relative right-eye vector `(5, 0)`,
matching `cosA = 1`, `sinA = 0`).  So the state hash of every image in the
batch does not necessarily change. -/
theorem invalidation_scope_counterexample :
    imgX1.eyeR ≠ imgX2.eyeR ∧
    scaledRelativeRightEyePos [imgY, imgX1] imgY = (5, 0) ∧
    scaledRelativeRightEyePos [imgY, imgX2] imgY = (5, 0) ∧
    scaledRelativeRightEyePos [imgY, imgX1] imgX1 = (5, 0) ∧
    scaledRelativeRightEyePos [imgY, imgX2] imgX2 = (5, 0) ∧
    stateInput [imgY, imgX1] imgY = stateInput [imgY, imgX2] imgY := by
  refine ⟨by norm_num [imgX1, imgX2], ?_, ?_, ?_, ?_, ?_⟩ <;>
    norm_num [stateInput, scaledRelativeRightEyePos, minInnerBoundaries,
      rectangleOverlap, largestInnerRectangle, cornersAfterRotation, rotatePts,
      getCorners, scaledImgDims, translationOf, maxScaledEyeCenter,
      scaledEyeCenter, eyeCenter, scaleOf, minEyeDist, listMin, listMaxZ,
      listMinZ, sortedGet, ratTrunc, evenFloor, imgY, imgX1, imgX2,
      List.insertionSort, List.orderedInsert, Int.fdiv, min_def, max_def]

/-- Per-image data reaching the normalization loop of
`NormalizeStage.process`: the content hash `img_data["hash"]` (the cache
key), the state hash, and the rotation magnitude
`math.degrees(angles[img_path])` in degrees. -/
structure NImg where
  key : FName
  state : FName
  angleDeg : ℚ

/-- The result of the normalization loop: normal termination with the final
cache directory, the `UserException` raised for a rotation of 45 degrees or
more, or the `Exception` raised by `Cache.cache` key/state validation. -/
inductive NormRes
  | ok (fs : CFS)
  | user (k : FName)
  | invalid (k : FName)
deriving DecidableEq

/-- The loop's observable outcome: the images warned about (rotation of at
least 30 but below 45 degrees), and the result. -/
structure NormOut where
  warned : List FName
  result : NormRes
deriving DecidableEq

/-- The per-image loop of `NormalizeStage.process` (the `for` loop after the
batch-phase computation): an image whose `(hash, state_hash)` is cached is
skipped via `continue`; otherwise a rotation magnitude of at least 45
degrees raises `UserException`, a magnitude of at least 30 degrees warns,
and the normalized image is stored in the cache. -/
def normalizeLoop (c : CacheCfg) (fs : CFS) : List NImg → NormOut
  | [] => ⟨[], .ok fs⟩
  | i :: rest =>
    if hasEntry c fs i.key i.state then normalizeLoop c fs rest
    else if 45 ≤ |i.angleDeg| then ⟨[], .user i.key⟩
    else
      match cacheStore c fs 0 i.key i.state with
      | none => ⟨if 30 ≤ |i.angleDeg| then [i.key] else [], .invalid i.key⟩
      | some fs' =>
        let r := normalizeLoop c fs' rest
        ⟨(if 30 ≤ |i.angleDeg| then [i.key] else []) ++ r.warned, r.result⟩

/-- C6 amended, part of one theorem: (1) a batch whose every image has a
cached normalized result finishes without any rotation check, whatever the
angles are; (2) when the loop reaches an uncached image of rotation at
least 45 degrees (after any cached images), it raises `UserException`; (3)
an uncached image with rotation in `[30, 45)` degrees is warned about and
the loop continues with the image stored. -/
theorem rotation_limit_amended :
    (∀ (c : CacheCfg) (fs : CFS) (imgs : List NImg),
      (∀ i ∈ imgs, hasEntry c fs i.key i.state = true) →
      normalizeLoop c fs imgs = ⟨[], .ok fs⟩) ∧
    (∀ (c : CacheCfg) (fs : CFS) (pre : List NImg) (i : NImg) (rest : List NImg),
      (∀ p ∈ pre, hasEntry c fs p.key p.state = true) →
      hasEntry c fs i.key i.state = false → 45 ≤ |i.angleDeg| →
      normalizeLoop c fs (pre ++ i :: rest) = ⟨[], .user i.key⟩) ∧
    (∀ (c : CacheCfg) (fs : CFS) (i : NImg) (rest : List NImg),
      hasEntry c fs i.key i.state = false →
      30 ≤ |i.angleDeg| → |i.angleDeg| < 45 → '-' ∉ i.key → '-' ∉ i.state →
      ∃ fs', cacheStore c fs 0 i.key i.state = some fs' ∧
        normalizeLoop c fs (i :: rest) =
          ⟨i.key :: (normalizeLoop c fs' rest).warned,
           (normalizeLoop c fs' rest).result⟩) := by
  refine ⟨?_, ?_, ?_⟩
  · intro c fs imgs hall
    induction imgs with
    | nil => rfl
    | cons i rest ih =>
      rw [normalizeLoop, if_pos (hall i (List.mem_cons_self i rest))]
      exact ih (fun p hp => hall p (List.mem_cons_of_mem i hp))
  · intro c fs pre i rest hpre hmiss hangle
    induction pre with
    | nil =>
      rw [List.nil_append, normalizeLoop, if_neg (by simp [hmiss]),
        if_pos hangle]
    | cons p pre' ih =>
      rw [List.cons_append, normalizeLoop,
        if_pos (hpre p (List.mem_cons_self p pre'))]
      exact ih (fun q hq => hpre q (List.mem_cons_of_mem p hq))
  · intro c fs i rest hmiss h30 h45 hk hs
    refine ⟨_, cacheStore_eq hk hs, ?_⟩
    rw [normalizeLoop, if_neg (by simp [hmiss]), if_neg (by simpa using h45),
      cacheStore_eq hk hs]
    simp [h30]

/-- Witness for the amended C6: a cached 50-degree image is skipped; an
uncached 50-degree image raises; an uncached 35-degree image is warned
about and processed. -/
theorem rotation_limit_amended_witness :
    normalizeLoop cacheEx [(pathName cacheEx ['k'] ['s'], 0)]
      [⟨['k'], ['s'], 50⟩] = ⟨[], .ok [(pathName cacheEx ['k'] ['s'], 0)]⟩ ∧
    normalizeLoop cacheEx [] [⟨['k'], ['s'], 50⟩] = ⟨[], .user ['k']⟩ ∧
    (∃ fs', cacheStore cacheEx [] 0 ['k'] ['s'] = some fs' ∧
      normalizeLoop cacheEx [] [⟨['k'], ['s'], 35⟩] =
        ⟨['k'] :: (normalizeLoop cacheEx fs' []).warned,
         (normalizeLoop cacheEx fs' []).result⟩) :=
  ⟨rotation_limit_amended.1 cacheEx [(pathName cacheEx ['k'] ['s'], 0)]
      [⟨['k'], ['s'], 50⟩] (by intro i hi; simp at hi; subst hi; decide),
   rotation_limit_amended.2.1 cacheEx [] [] ⟨['k'], ['s'], 50⟩ []
      (by intro p hp; cases hp) (by decide) (by norm_num),
   rotation_limit_amended.2.2 cacheEx [] ⟨['k'], ['s'], 35⟩ []
      (by decide) (by norm_num) (by norm_num) (by decide) (by decide)⟩

/-- C6 counterexample: an image rotated by 50 degrees whose
`(hash, state_hash)` pair has a cached normalized result is skipped by the
loop without raising any error, so a rotation of at least 45 degrees does
not fail when the image has a cached normalized result. -/
theorem rotation_limit_counterexample :
    (45 : ℚ) ≤ |(50 : ℚ)| ∧
    normalizeLoop cacheEx [(pathName cacheEx ['k'] ['s'], 0)]
      [⟨['k'], ['s'], 50⟩] = ⟨[], .ok [(pathName cacheEx ['k'] ['s'], 0)]⟩ := by
  constructor
  · norm_num
  · rw [normalizeLoop, if_pos (by decide)]
    rfl

/-- Outcome of the face-count dispatch in `find_face`
(`stages/FindFacesStage.py`): the selected face, the `UserException` for
zero faces ("Not enough faces"), or the `UserException` for multiple faces
without an override ("Too many faces"). -/
inductive FaceOutcome (F : Type)
  | found (f : F)
  | notEnough
  | tooMany (n : ℕ)
deriving DecidableEq

/-- Lookup of `img_name` in the `face_selection_overrides` table. -/
def lookupOverride {F : Type} (ovr : List (FName × (F → ℤ))) (n : FName) :
    Option (F → ℤ) :=
  match ovr.find? (fun e => e.1 == n) with
  | some e => some e.2
  | none => none

/-- The face-count dispatch of `find_face` (lines 112-134): zero faces raise
`UserException` with nothing written to the error directory; one face is
selected; multiple faces are sorted by a configured override and the first
is selected, or, with no override, one annotated image named after the input
is written to the error directory and `UserException` is raised.  The first
component is the list of file names written to the error directory. -/
def findFaceBranch {F : Type} (imgName : FName) (faces : List F)
    (ovr : List (FName × (F → ℤ))) : List FName × FaceOutcome F :=
  match faces with
  | [] => ([], .notEnough)
  | [f] => ([], .found f)
  | f :: g :: rest =>
    match lookupOverride ovr imgName with
    | some o =>
      match (f :: g :: rest).insertionSort (fun a b => o a ≤ o b) with
      | h :: _ => ([], .found h)
      | [] => ([], .found f)
    | none => ([imgName], .tooMany (f :: g :: rest).length)

/-- C8: in the zero-faces condition `find_face` raises without writing any
debug artifact (the annotated image is written only in the multiple-faces,
no-override condition), contradicting the claim and the function's own
docstring. -/
theorem find_face_zero_faces_no_artifact :
    (∀ (n : FName) (ovr : List (FName × (ℕ → ℤ))),
      findFaceBranch n ([] : List ℕ) ovr = ([], .notEnough)) ∧
    findFaceBranch ['a'] ([1, 2] : List ℕ) [] = ([['a']], .tooMany 2) := by
  exact ⟨fun n ovr => rfl, rfl⟩

/-- A pipeline stage as `Pipeline.register` sees it: an instance of one of
the three recognized `Stage` subclasses, or a stage that is an instance of
none of them.  Payloads are abstract identifiers. -/
inductive PStage
  | pre (n : ℕ)
  | proc (n : ℕ)
  | post (n : ℕ)
  | other (n : ℕ)
deriving DecidableEq

/-- The three stage lists created by `Pipeline.__init__`. -/
structure PipelineSt where
  preprocessing : List ℕ
  processing : List ℕ
  postprocessing : List ℕ
deriving DecidableEq

/-- `Pipeline.register`: an `isinstance` dispatch over the three recognized
stage kinds, with no `else` branch; any other stage leaves the pipeline
unchanged (nothing in the source can raise here). -/
def register (p : PipelineSt) (s : PStage) : PipelineSt :=
  match s with
  | .pre n => { p with preprocessing := p.preprocessing ++ [n] }
  | .proc n => { p with processing := p.processing ++ [n] }
  | .post n => { p with postprocessing := p.postprocessing ++ [n] }
  | .other _ => p

/-- The stages `Pipeline.run` executes, in order: every registered
preprocessing stage, then every processing stage, then every postprocessing
stage. -/
def runStages (p : PipelineSt) : List PStage :=
  p.preprocessing.map PStage.pre ++ p.processing.map PStage.proc ++
    p.postprocessing.map PStage.post

/-- C10: registering a stage that is none of the three recognized kinds
returns normally, leaves all three stage lists unchanged, and the stage is
never executed by `run`. -/
theorem register_unknown_stage (p : PipelineSt) (n : ℕ) :
    register p (PStage.other n) = p ∧
    PStage.other n ∉ runStages (register p (PStage.other n)) := by
  refine ⟨rfl, ?_⟩
  intro hmem
  simp [runStages, register] at hmem
